import Mathlib

/-!
Shallow embedding of the context retrieval engine of ReactNativeLLM
(`src/services/ContextProcessor.ts`, `src/services/ContextFileManager.ts`,
`src/services/MCPContextManager.ts`, `src/config/ContextConfig.ts`).

Strings are modelled as lists of characters (`Str`), JavaScript string
operations (`split`, `trim`, `replace`, `includes`, `join`) as the
corresponding list functions, and JavaScript numbers that hold relevance
scores as exact rationals (every score is `m / n` with `n ≤ 20`, and the
threshold literal `0.05` is the same double as `1 / 20`, so IEEE-754
comparison of these values agrees with the rational comparison).
`uuid()` is modelled as a draw from an injective supply of fresh
identifiers: each chunk records the index of the draw that produced its id,
and a counter is threaded through the processing functions exactly where
the source calls `uuid()`.
-/

/-- Strings of the source program, modelled as lists of characters. -/
abbrev Str := List Char

/-- Characters matched by the JavaScript regex class `\s` (ASCII range). -/
def isWsChar (c : Char) : Bool :=
  c = ' ' || c = '\t' || c = '\n' || c = '\r' || c = '\x0b' || c = '\x0c'

/-- JavaScript `trimStart`: drop leading whitespace. -/
def trimLeft (s : Str) : Str := s.dropWhile isWsChar

/-- JavaScript `trimEnd`: drop trailing whitespace. -/
def trimRight (s : Str) : Str := (s.reverse.dropWhile isWsChar).reverse

/-- JavaScript `trim`: drop leading and trailing whitespace. -/
def trim (s : Str) : Str := trimRight (trimLeft s)

/-- Helper of `fields`: `acc` is the reversed current token. -/
def fieldsAux : Str → Str → List Str
  | [], acc => if acc.isEmpty then [] else [acc.reverse]
  | c :: cs, acc =>
    if isWsChar c then
      if acc.isEmpty then fieldsAux cs [] else acc.reverse :: fieldsAux cs []
    else fieldsAux cs (c :: acc)

/-- The maximal runs of non-whitespace characters of a string, in order. -/
def fields (s : Str) : List Str := fieldsAux s []

/-- JavaScript `s.split(/\s+/)`: maximal whitespace runs separate the string
into its fields; a leading run contributes one empty first element, a trailing
run one empty last element, and the empty string yields `[""]`. -/
def splitWs (s : Str) : List Str :=
  if s.isEmpty then [[]]
  else
    (if isWsChar (s.headD 'x') then [([] : Str)] else []) ++ fields s ++
      (if isWsChar (s.getLastD 'x') then [([] : Str)] else [])

/-- JavaScript `content.split('\n')`. -/
def splitLines (s : Str) : List Str := s.splitOn '\n'

/-- JavaScript `words.join(' ')`. -/
def joinSpace : List Str → Str
  | [] => []
  | [w] => w
  | w :: ws => w ++ ' ' :: joinSpace ws

/-- JavaScript `sections.join('\n\n')`. -/
def joinBlank : List Str → Str
  | [] => []
  | [w] => w
  | w :: ws => w ++ '\n' :: '\n' :: joinBlank ws

/-- JavaScript `s.replace(/\s+/g, ' ')`: collapse every maximal whitespace run
to a single space. -/
def collapseWs : Str → Str
  | [] => []
  | [c] => if isWsChar c then [' '] else [c]
  | c :: d :: cs =>
    if isWsChar c then
      if isWsChar d then collapseWs (d :: cs) else ' ' :: collapseWs (d :: cs)
    else c :: collapseWs (d :: cs)

/-- JavaScript `hay.includes(needle)` (substring test). -/
def strIncludes : Str → Str → Bool
  | [], needle => needle.isEmpty
  | c :: t, needle => needle.isPrefixOf (c :: t) || strIncludes t needle

/-- Constant `CONTEXT_CONSTANTS.CHUNK_SIZE` of `ContextConfig.ts`. -/
def CHUNK_SIZE : Nat := 500

/-- Constant `CONTEXT_CONSTANTS.CHUNK_OVERLAP` of `ContextConfig.ts`. -/
def CHUNK_OVERLAP : Nat := 50

/-- Constant `CONTEXT_CONSTANTS.MIN_KEYWORD_LENGTH` of `ContextConfig.ts`. -/
def MIN_KEYWORD_LENGTH : Nat := 3

/-- Constant `CONTEXT_CONSTANTS.MAX_CHUNKS_PER_QUERY` of `ContextConfig.ts`. -/
def MAX_CHUNKS_PER_QUERY : Nat := 5

/-- Constant `DEFAULT_MCP_CONFIG.relevanceThreshold = 0.05` of
`ContextConfig.ts`, as the exact rational it denotes for the comparisons the
source performs (see the header comment). -/
def relevanceThreshold : ℚ := mkRat 1 20

/-- The characters of the regex class `[#*`  `_\[\]()]` that
`extractKeywords` replaces by spaces (markdown punctuation). -/
def isMdPunct (c : Char) : Bool :=
  c = '#' || c = '*' || c = '`' || c = '_' || c = '[' || c = ']' ||
    c = '(' || c = ')'

/-- Characters of the JavaScript regex class `\w` (ASCII word characters). -/
def isWordChar (c : Char) : Bool := c.isAlphanum || c = '_'

/-- The stop word list of `ContextProcessor.isStopWord`. -/
def stopWords : List Str :=
  (["the", "a", "an", "and", "or", "but", "in", "on", "at", "to", "for",
    "of", "with", "by", "from", "up", "about", "into", "through", "during",
    "before", "after", "above", "below", "is", "are", "was", "were", "be",
    "been", "being", "have", "has", "had", "do", "does", "did", "will",
    "would", "could", "should", "may", "might", "must", "can", "this",
    "that", "these", "those"]).map String.data

/-- `ContextProcessor.isStopWord`. -/
def isStopWord (w : Str) : Bool := (w.map Char.toLower) ∈ stopWords

/-- Helper of `dedupFirst`: `seen` collects the words already emitted. -/
def dedupFirstAux : List Str → List Str → List Str
  | [], _ => []
  | w :: ws, seen =>
    if w ∈ seen then dedupFirstAux ws seen
    else w :: dedupFirstAux ws (w :: seen)

/-- JavaScript `[...new Set(words)]`: deduplicate keeping first occurrences. -/
def dedupFirst (l : List Str) : List Str := dedupFirstAux l []

/-- `ContextProcessor.extractKeywords`: strip markdown punctuation, lowercase,
strip remaining non-word characters, collapse and trim whitespace, split on
single spaces, keep words of length at least `MIN_KEYWORD_LENGTH` that are not
stop words, deduplicate keeping first occurrences, and truncate to 20. -/
def extractKeywords (content : Str) : List Str :=
  let step1 := content.map (fun c => if isMdPunct c then ' ' else c)
  let step2 := step1.map Char.toLower
  let step3 := step2.map (fun c => if isWordChar c || isWsChar c then c else ' ')
  let cleaned := trim (collapseWs step3)
  let words := cleaned.splitOn ' '
  let kept := words.filter fun w =>
    MIN_KEYWORD_LENGTH ≤ w.length && !(isStopWord w)
  (dedupFirst kept).take 20

/-- One section of the markdown document: `{title, content}` of
`ContextProcessor.splitByMarkdownHeaders`. -/
structure MDSection where
  title : Str
  content : Str
  deriving DecidableEq, Repr

/-- The test `line.match(/^#{1,6}\s+/)`: between one and six leading `#`
characters immediately followed by a whitespace character (with seven or more
leading `#` characters the greedy quantifier backtracks onto another `#` and
the match fails). -/
def isHeaderLine (line : Str) : Bool :=
  let n := (line.takeWhile (fun c => c = '#')).length
  1 ≤ n && n ≤ 6 &&
    (match line.drop n with
     | c :: _ => isWsChar c
     | [] => false)

/-- The title of a header line:
`line.replace(/^#{1,6}\s+/, '').trim()` — remove the leading `#` run and the
maximal whitespace run after it, then trim. -/
def headerTitle (line : Str) : Str :=
  trim ((line.drop (line.takeWhile (fun c => c = '#')).length).dropWhile isWsChar)

/-- The loop of `ContextProcessor.splitByMarkdownHeaders`: walk the lines,
starting a new section at each header line; a finished section is kept only
when its content is non-empty after trimming. -/
def splitGo : List Str → MDSection → List MDSection
  | [], cur => if (trim cur.content).isEmpty then [] else [cur]
  | l :: ls, cur =>
    if isHeaderLine l then
      (if (trim cur.content).isEmpty then [] else [cur]) ++
        splitGo ls ⟨headerTitle l, l ++ ['\n']⟩
    else splitGo ls ⟨cur.title, cur.content ++ l ++ ['\n']⟩

/-- The string literal `'Content'`, title of the fallback section. -/
def contentTitle : Str := "Content".data

/-- `ContextProcessor.splitByMarkdownHeaders`. When no section was produced
the whole document becomes one section titled `Content`. -/
def splitByMarkdownHeaders (content : Str) : List MDSection :=
  let sections := splitGo (splitLines content) ⟨[], []⟩
  if sections.isEmpty then [⟨contentTitle, content⟩] else sections

/-- A context chunk (`ContextChunk` of `ContextTypes.ts`). The `id` field of
the source holds a fresh `uuid()`; here it records the index of the uuid draw
that produced it (the uuid supply is injective, so distinct draws are distinct
ids). The source field `section` is named `sectionTitle` because `section` is
reserved in Lean; `section: string | undefined` becomes `Option Str`. -/
structure ContextChunk where
  id : Nat
  content : Str
  keywords : List Str
  sectionTitle : Option Str
  deriving DecidableEq, Repr

/-- The word window of `createChunksFromSection`:
`words.slice(i, i + chunkSize)`. -/
def window (words : List Str) (i : Nat) : List Str :=
  (words.drop i).take CHUNK_SIZE

/-- The start indices visited by the loop
`for (let i = 0; i < words.length; i += chunkSize - overlap)`:
the multiples of `CHUNK_SIZE - CHUNK_OVERLAP` below `len`. -/
def windowStarts (len : Nat) : List Nat :=
  (List.range ((len + (CHUNK_SIZE - CHUNK_OVERLAP) - 1) /
      (CHUNK_SIZE - CHUNK_OVERLAP))).map (· * (CHUNK_SIZE - CHUNK_OVERLAP))

/-- The loop body of `createChunksFromSection` over the window starts,
threading the uuid draw counter: a window whose joined, trimmed text is
non-empty emits one chunk (and consumes one uuid draw). -/
def chunksGo (title : Str) (words : List Str) : List Nat → Nat → List ContextChunk × Nat
  | [], n => ([], n)
  | i :: is, n =>
    let c := trim (joinSpace (window words i))
    if c.isEmpty then chunksGo title words is n
    else
      let rest := chunksGo title words is (n + 1)
      (⟨n, c, extractKeywords c,
         if title.isEmpty then none else some title⟩ :: rest.1, rest.2)

/-- `ContextProcessor.createChunksFromSection`, uuid draws threaded. -/
def createChunksFromSection (sec : MDSection) (n : Nat) : List ContextChunk × Nat :=
  let words := splitWs sec.content
  chunksGo sec.title words (windowStarts words.length) n

/-- The fold of `ContextProcessor.processContextContent` over the sections. -/
def processSections : List MDSection → Nat → List ContextChunk × Nat
  | [], n => ([], n)
  | s :: ss, n =>
    let first := createChunksFromSection s n
    let rest := processSections ss first.2
    (first.1 ++ rest.1, rest.2)

/-- `ContextProcessor.processContextContent` (its `try/catch` cannot fire in
this total model and is dropped). -/
def processContextContent (content : Str) (n : Nat) : List ContextChunk × Nat :=
  processSections (splitByMarkdownHeaders content) n

/-- A chunk together with the transient relevance score the scorer attaches
(`{ ...chunk, relevanceScore: score }`). -/
structure ScoredChunk where
  chunk : ContextChunk
  relevanceScore : ℚ
  deriving DecidableEq, Repr

/-- `ContextProcessor.calculateSimpleRelevanceScore`: the fraction of query
keywords that match some chunk keyword by case-insensitive substring in
either direction; `0` when either keyword list is empty. -/
def calculateSimpleRelevanceScore (queryKeywords : List Str) (chunk : ContextChunk) : ℚ :=
  if queryKeywords.isEmpty || chunk.keywords.isEmpty then 0
  else
    let common := queryKeywords.filter fun q =>
      chunk.keywords.any fun k =>
        strIncludes (k.map Char.toLower) (q.map Char.toLower) ||
          strIncludes (q.map Char.toLower) (k.map Char.toLower)
    mkRat common.length queryKeywords.length

/-- Stable descending insertion: `x` is placed before the first element whose
score is at most `x`'s. Earlier elements with equal score stay in front, so
the resulting order is the one JavaScript's stable
`sort((a, b) => b.relevanceScore - a.relevanceScore)` produces. -/
def insertDesc (x : ScoredChunk) : List ScoredChunk → List ScoredChunk
  | [] => [x]
  | y :: ys =>
    if y.relevanceScore ≤ x.relevanceScore then x :: y :: ys
    else y :: insertDesc x ys

/-- Stable sort by descending relevance score (model of the JavaScript
`sort((a, b) => b.relevanceScore - a.relevanceScore)`, which is stable; the
scores are exact rationals, see the header comment). -/
def sortByScoreDesc : List ScoredChunk → List ScoredChunk
  | [] => []
  | x :: xs => insertDesc x (sortByScoreDesc xs)

/-- `ContextProcessor.extractRelevantChunks`: score every chunk, keep those
above the threshold sorted by descending score and truncated to
`MAX_CHUNKS_PER_QUERY`; when none clears the threshold but chunks exist,
fall back to the whole list sorted by descending score, truncated to
`min 2 MAX_CHUNKS_PER_QUERY`. -/
def extractRelevantChunks (userQuery : Str) (chunks : List ContextChunk) :
    List ScoredChunk :=
  let queryKeywords := extractKeywords userQuery
  let scoredChunks := chunks.map fun c =>
    ScoredChunk.mk c (calculateSimpleRelevanceScore queryKeywords c)
  let relevantChunks :=
    (sortByScoreDesc (scoredChunks.filter
        fun c => relevanceThreshold < c.relevanceScore)).take MAX_CHUNKS_PER_QUERY
  if relevantChunks.isEmpty && !scoredChunks.isEmpty then
    (sortByScoreDesc scoredChunks).take (min 2 MAX_CHUNKS_PER_QUERY)
  else relevantChunks

/-- The fixed text before the chunk sections in `buildContextPrompt`. -/
def promptHeader : Str :=
  "[CONTEXT ACTIVE] You have access to the following information about the user:\n\n".data

/-- The fixed text after the chunk sections in `buildContextPrompt`. -/
def promptFooter : Str :=
  "\n\nPlease use this information to provide personalized and relevant responses. When the user asks about themselves, their projects, preferences, or anything related to the above information, incorporate these details naturally into your response. Start your response by acknowledging you have this context information.".data

/-- The rendering of one chunk inside the prompt: an optional
`**<section>:**` header line followed by the chunk text. -/
def renderChunk (c : ContextChunk) : Str :=
  (match c.sectionTitle with
   | some t => '*' :: '*' :: t ++ ':' :: '*' :: '*' :: ['\n']
   | none => []) ++ c.content

set_option linter.unusedVariables false in
/-- `ContextProcessor.buildContextPrompt`: the empty string for an empty
chunk list, otherwise the fixed preamble, the rendered chunks joined by blank
lines, and the fixed closing instruction (the `userQuery` argument is unused
by the source as well). -/
def buildContextPrompt (userQuery : Str) (relevantChunks : List ContextChunk) : Str :=
  if relevantChunks.isEmpty then []
  else promptHeader ++ joinBlank (relevantChunks.map renderChunk) ++ promptFooter

/-- The cached document (`ContextDocument` of `ContextTypes.ts`). The `Date`
field `lastModified` is wall-clock metadata with no algorithmic content and is
not modelled. -/
structure ContextDocument where
  content : Str
  size : Nat
  chunks : List ContextChunk
  isValid : Bool
  deriving DecidableEq, Repr

/-- The state of the backing store as `ContextFileManager` observes it:
whether the existence check reports the file (RNFS.exists, with its own errors
caught and folded into `false`), whether reading or stat-ing raises, and the
file's text and size on a successful read. -/
structure FileSystem where
  fileExists : Bool
  readFails : Bool
  content : Str
  size : Nat

/-- `ContextFileManager.readContextFile`: `null` when the file is absent or
any I/O step raises (caught and logged); otherwise the document with an empty
chunk list and `isValid = (content.trim().length > 0)`. -/
def readContextFile (fs : FileSystem) : Option ContextDocument :=
  if !fs.fileExists then none
  else if fs.readFails then none
  else some ⟨fs.content, fs.size, [], !(trim fs.content).isEmpty⟩

/-- The mutable state of `MCPContextManager` (`lastFileCheck`, a wall-clock
`Date`, is not modelled); `uuidCounter` is the index of the next uuid draw. -/
structure MCPState where
  contextDocument : Option ContextDocument
  isInitialized : Bool
  uuidCounter : Nat
  deriving DecidableEq, Repr

/-- The state of `MCPContextManager` at startup. -/
def initialState : MCPState := ⟨none, false, 0⟩

/-- `MCPContextManager.refreshContext`: re-read the file; on a document,
process its content into chunks and cache the result, otherwise drop the
cache (its `try/catch` cannot fire in this total model and is dropped). -/
def refreshContext (s : MCPState) (fs : FileSystem) : MCPState :=
  match readContextFile fs with
  | some doc =>
    let p := processContextContent doc.content s.uuidCounter
    { s with contextDocument := some { doc with chunks := p.1 }, uuidCounter := p.2 }
  | none => { s with contextDocument := none }

/-- `MCPContextManager.initialize`: refresh, then set the flag. The body's
`try/catch` cannot fire because `refreshContext` catches its own errors, so
the flag is set on every path. -/
def mcpInit (s : MCPState) (fs : FileSystem) : MCPState :=
  { refreshContext s fs with isInitialized := true }

/-- `MCPContextManager.isContextAvailable`. -/
def isContextAvailable (s : MCPState) : Bool :=
  match s.contextDocument with
  | none => false
  | some d => d.isValid && decide (0 < d.chunks.length)

/-- `MCPContextManager.getContextForQuery`: lazily initialize, answer `null`
when the context is unavailable or the selection is empty, otherwise build
the prompt from the selected chunks. Returns the result together with the
state after the call. -/
def getContextForQuery (userQuery : Str) (s : MCPState) (fs : FileSystem) :
    Option Str × MCPState :=
  let s1 := if s.isInitialized then s else mcpInit s fs
  if !(isContextAvailable s1) then (none, s1)
  else
    match s1.contextDocument with
    | none => (none, s1)
    | some doc =>
      let relevantChunks := extractRelevantChunks userQuery doc.chunks
      if relevantChunks.isEmpty then (none, s1)
      else (some (buildContextPrompt userQuery (relevantChunks.map (·.chunk))), s1)

/-- `MCPContextManager.forceRefresh`: refresh and report availability. -/
def forceRefresh (s : MCPState) (fs : FileSystem) : Bool × MCPState :=
  let s1 := refreshContext s fs
  (isContextAvailable s1, s1)

/-- The id-independent data of a chunk: text, keywords, and section title. -/
def chunkData (c : ContextChunk) : Str × List Str × Option Str :=
  (c.content, c.keywords, c.sectionTitle)

/-- The id-independent data of a cached document. -/
def docData (d : ContextDocument) : Str × Nat × Bool × List (Str × List Str × Option Str) :=
  (d.content, d.size, d.isValid, d.chunks.map chunkData)

/-- Two manager states agree on everything except the uuid draws: same flag,
both caches present or both absent, and cached documents equal in content,
size, validity, and in the text, keywords, and section of every chunk. -/
def stateDataEquiv (s t : MCPState) : Prop :=
  s.isInitialized = t.isInitialized ∧
    Option.map docData s.contextDocument = Option.map docData t.contextDocument

lemma length_insertDesc (x : ScoredChunk) (l : List ScoredChunk) :
    (insertDesc x l).length = l.length + 1 := by
  induction l with
  | nil => rfl
  | cons y ys ih =>
    simp only [insertDesc]
    split
    · simp
    · simp [ih]

lemma length_sortByScoreDesc (l : List ScoredChunk) :
    (sortByScoreDesc l).length = l.length := by
  induction l with
  | nil => rfl
  | cons x xs ih => simp [sortByScoreDesc, length_insertDesc, ih]

lemma sortByScoreDesc_of_const (r : ℚ) (l : List ScoredChunk)
    (h : ∀ y ∈ l, y.relevanceScore = r) : sortByScoreDesc l = l := by
  induction l with
  | nil => rfl
  | cons x xs ih =>
    have hx : x.relevanceScore = r := h x (List.mem_cons_self x xs)
    have hxs : ∀ y ∈ xs, y.relevanceScore = r := fun y hy => h y (List.mem_cons_of_mem x hy)
    rw [sortByScoreDesc, ih hxs]
    cases xs with
    | nil => rfl
    | cons y ys =>
      have hy : y.relevanceScore = r := hxs y (List.mem_cons_self y ys)
      simp [insertDesc, hx, hy]

/-- Claim C1: for every chunk list and every query whose keyword extraction
yields the empty keyword set, every chunk's relevance score is `0`, and
whenever the chunk list is non-empty `extractRelevantChunks` takes the
fallback path and returns exactly the first `min 2 |chunks|` chunks in
original document order (each carrying score `0`). -/
theorem c1_empty_keywords_fallback (q : Str) (chunks : List ContextChunk)
    (h : extractKeywords q = []) :
    (∀ c ∈ chunks, calculateSimpleRelevanceScore (extractKeywords q) c = 0) ∧
      (chunks ≠ [] →
        extractRelevantChunks q chunks =
          (chunks.take 2).map (fun c => ScoredChunk.mk c 0) ∧
        (extractRelevantChunks q chunks).map ScoredChunk.chunk = chunks.take 2 ∧
        (extractRelevantChunks q chunks).length = min 2 chunks.length) := by
  have hscore : ∀ c, calculateSimpleRelevanceScore (extractKeywords q) c = 0 := by
    intro c
    simp [calculateSimpleRelevanceScore, h]
  refine ⟨fun c _ => hscore c, fun hne => ?_⟩
  have hmap : (chunks.map fun c =>
      ScoredChunk.mk c (calculateSimpleRelevanceScore (extractKeywords q) c)) =
      chunks.map fun c => ScoredChunk.mk c 0 := by
    apply List.map_congr_left
    intro c _
    rw [hscore c]
  have hfilter : ((chunks.map fun c => ScoredChunk.mk c 0).filter
      fun c => decide (relevanceThreshold < c.relevanceScore)) = [] := by
    rw [List.filter_eq_nil_iff]
    intro a ha
    rcases List.mem_map.mp ha with ⟨c, _, rfl⟩
    simp [relevanceThreshold]
  have hsort : sortByScoreDesc (chunks.map fun c => ScoredChunk.mk c 0) =
      chunks.map fun c => ScoredChunk.mk c 0 := by
    apply sortByScoreDesc_of_const 0
    intro y hy
    rcases List.mem_map.mp hy with ⟨c, _, rfl⟩
    rfl
  have hres : extractRelevantChunks q chunks =
      (chunks.take 2).map fun c => ScoredChunk.mk c 0 := by
    unfold extractRelevantChunks
    simp only [hmap, hfilter, hsort]
    have hnonempty : (chunks.map fun c => ScoredChunk.mk c 0).isEmpty = false := by
      cases chunks with
      | nil => exact absurd rfl hne
      | cons a l => rfl
    simp [hnonempty, MAX_CHUNKS_PER_QUERY, List.map_take, sortByScoreDesc]
  refine ⟨hres, ?_, ?_⟩
  · rw [hres, List.map_map]
    have : (ScoredChunk.chunk ∘ fun c => ScoredChunk.mk c 0) = id := rfl
    rw [this, List.map_id]
  · rw [hres, List.length_map, List.length_take]

/-- Witness for C1 at a concrete stop-word query and three concrete chunks. -/
theorem c1_witness :
    extractKeywords "the and of".data = [] ∧
      (extractRelevantChunks "the and of".data
          [⟨0, "alpha".data, ["alpha".data], none⟩,
           ⟨1, "beta".data, ["beta".data], none⟩,
           ⟨2, "gamma".data, ["gamma".data], none⟩]).map ScoredChunk.chunk =
        [⟨0, "alpha".data, ["alpha".data], none⟩,
         ⟨1, "beta".data, ["beta".data], none⟩] :=
  ⟨by decide,
    by
      have h := (c1_empty_keywords_fallback "the and of".data
        [⟨0, "alpha".data, ["alpha".data], none⟩,
         ⟨1, "beta".data, ["beta".data], none⟩,
         ⟨2, "gamma".data, ["gamma".data], none⟩] (by decide)).2 (by decide)
      exact h.2.1⟩

lemma isContextAvailable_iff (s : MCPState) :
    isContextAvailable s = true ↔
      ∃ d, s.contextDocument = some d ∧ d.isValid = true ∧ d.chunks ≠ [] := by
  cases hd : s.contextDocument with
  | none => simp [isContextAvailable, hd]
  | some d =>
    simp only [isContextAvailable, hd, Bool.and_eq_true, decide_eq_true_eq,
      Option.some.injEq]
    constructor
    · rintro ⟨hv, hl⟩
      exact ⟨d, rfl, hv, List.length_pos.mp hl⟩
    · rintro ⟨d', hdd, hv, hl⟩
      cases hdd
      exact ⟨hv, List.length_pos.mpr hl⟩

/-- Claim C6: at every state of the context manager, `isContextAvailable`
holds exactly when a document is cached, it is valid, and its chunk list is
non-empty. -/
theorem c6_available_iff (s : MCPState) :
    isContextAvailable s = true ↔
      ∃ d, s.contextDocument = some d ∧ d.isValid = true ∧ d.chunks ≠ [] :=
  isContextAvailable_iff s

/-- Witness for C6 at a concrete available state. -/
theorem c6_witness :
    ∃ d, (MCPState.mk (some ⟨"x".data, 1, [⟨0, "x".data, [], none⟩], true⟩)
        true 1).contextDocument = some d ∧ d.isValid = true ∧ d.chunks ≠ [] :=
  (c6_available_iff _).mp (by decide)

lemma mem_joinBlank (x : Str) (l : List Str) (h : x ∈ l) : x <:+: joinBlank l := by
  induction l with
  | nil => cases h
  | cons w ws ih =>
    rcases List.mem_cons.mp h with rfl | hmem
    · cases ws with
      | nil => exact List.infix_rfl
      | cons a b =>
        exact List.IsPrefix.isInfix (List.prefix_append x ('\n' :: '\n' :: joinBlank (a :: b)))
    · cases ws with
      | nil => cases hmem
      | cons a b =>
        have h1 : joinBlank (a :: b) <:+ w ++ '\n' :: '\n' :: joinBlank (a :: b) := by
          have := List.suffix_append (w ++ ['\n', '\n']) (joinBlank (a :: b))
          simpa using this
        exact List.IsInfix.trans (ih hmem) (List.IsSuffix.isInfix h1)

lemma content_infix_renderChunk (c : ContextChunk) : c.content <:+: renderChunk c := by
  unfold renderChunk
  cases c.sectionTitle with
  | none => simp
  | some t =>
    exact List.IsSuffix.isInfix (List.suffix_append _ c.content)

/-- Claim C7: `buildContextPrompt` returns the empty string on an empty chunk
list, and for any chunk list its output contains every chunk's text verbatim
as a contiguous substring. -/
theorem c7_prompt_contains_chunks (q : Str) (cs : List ContextChunk) :
    buildContextPrompt q [] = [] ∧
      ∀ c ∈ cs, c.content <:+: buildContextPrompt q cs := by
  refine ⟨rfl, fun c hc => ?_⟩
  have hne : cs.isEmpty = false := by
    cases cs with
    | nil => cases hc
    | cons a l => rfl
  unfold buildContextPrompt
  rw [hne]
  simp only [Bool.false_eq_true, if_false]
  have h1 : c.content <:+: renderChunk c := content_infix_renderChunk c
  have h2 : renderChunk c <:+: joinBlank (cs.map renderChunk) :=
    mem_joinBlank _ _ (List.mem_map_of_mem renderChunk hc)
  have h3 : joinBlank (cs.map renderChunk) <:+:
      promptHeader ++ joinBlank (cs.map renderChunk) ++ promptFooter :=
    List.infix_append promptHeader _ promptFooter
  exact List.IsInfix.trans (List.IsInfix.trans h1 h2) h3

/-- Witness for C7 at a concrete two-chunk list. -/
theorem c7_witness :
    (⟨1, "I like Rust.".data, [], some "About".data⟩ : ContextChunk) ∈
        [⟨0, "hello".data, [], none⟩,
         (⟨1, "I like Rust.".data, [], some "About".data⟩ : ContextChunk)] ∧
      ("I like Rust.".data : Str) <:+:
        buildContextPrompt "q".data
          [⟨0, "hello".data, [], none⟩, ⟨1, "I like Rust.".data, [], some "About".data⟩] :=
  ⟨by decide,
    (c7_prompt_contains_chunks "q".data
        [⟨0, "hello".data, [], none⟩, ⟨1, "I like Rust.".data, [], some "About".data⟩]).2
      ⟨1, "I like Rust.".data, [], some "About".data⟩ (by decide)⟩

/-- Counterexample to claim C4 as stated: for an existing file whose text is
empty (hence empty after trimming), `readContextFile` does not return `None`;
it returns a document whose `isValid` flag is `false`. -/
theorem c4_counterexample :
    (trim (FileSystem.mk true false [] 0).content).isEmpty = true ∧
      (FileSystem.mk true false [] 0).fileExists = true ∧
      readContextFile (FileSystem.mk true false [] 0) ≠ none ∧
      readContextFile (FileSystem.mk true false [] 0) =
        some ⟨[], 0, [], false⟩ := by
  refine ⟨rfl, rfl, ?_, rfl⟩
  decide

/-- Claim C4 as amended: `readContextFile` returns `None` exactly when the
file is absent or an I/O step fails (failures are caught, never re-raised);
when the file exists and reads succeed it returns a document whose `isValid`
flag is `true` exactly when the text is non-empty after trimming — an
empty-after-trim file yields an invalid document, not `None`. -/
theorem c4_amended (fs : FileSystem) :
    (readContextFile fs = none ↔ (fs.fileExists = false ∨ fs.readFails = true)) ∧
      ∀ d, readContextFile fs = some d → (d.isValid = true ↔ trim fs.content ≠ []) := by
  unfold readContextFile
  rcases fs with ⟨he, hr, content, size⟩
  cases he <;> cases hr <;> simp

/-- Witness for C4 as amended, at a concrete readable non-empty file. -/
theorem c4_amended_witness :
    readContextFile (FileSystem.mk true false "hi".data 2) =
        some ⟨"hi".data, 2, [], true⟩ ∧
      ((⟨"hi".data, 2, [], true⟩ : ContextDocument).isValid = true ↔
        trim (FileSystem.mk true false "hi".data 2).content ≠ []) :=
  ⟨by decide,
    (c4_amended (FileSystem.mk true false "hi".data 2)).2 _ (by decide)⟩

lemma chunksGo_data (title : Str) (words : List Str) (starts : List Nat)
    (n m : Nat) :
    (chunksGo title words starts n).1.map chunkData =
      (chunksGo title words starts m).1.map chunkData := by
  induction starts generalizing n m with
  | nil => rfl
  | cons i is ih =>
    simp only [chunksGo]
    split
    · exact ih n m
    · simp only [List.map_cons, chunkData]
      rw [ih (n + 1) (m + 1)]

lemma createChunksFromSection_data (sec : MDSection) (n m : Nat) :
    (createChunksFromSection sec n).1.map chunkData =
      (createChunksFromSection sec m).1.map chunkData := by
  unfold createChunksFromSection
  exact chunksGo_data _ _ _ n m

lemma processSections_data (ss : List MDSection) (n m : Nat) :
    (processSections ss n).1.map chunkData =
      (processSections ss m).1.map chunkData := by
  induction ss generalizing n m with
  | nil => rfl
  | cons s ss ih =>
    simp only [processSections, List.map_append]
    rw [createChunksFromSection_data s n m, ih]

lemma processContextContent_data (content : Str) (n m : Nat) :
    (processContextContent content n).1.map chunkData =
      (processContextContent content m).1.map chunkData := by
  unfold processContextContent
  exact processSections_data _ n m

/-- Counterexample to claim C3 as stated: processing the same document twice
(two refreshes of an unchanged file) yields chunk lists with different ids —
each call draws fresh uuids — even though text and keywords agree. -/
theorem c3_counterexample :
    (refreshContext initialState
        (FileSystem.mk true false "hello world".data 11)).contextDocument.map
          (fun d => d.chunks.map ContextChunk.id) = some [0] ∧
      (refreshContext (refreshContext initialState
          (FileSystem.mk true false "hello world".data 11))
        (FileSystem.mk true false "hello world".data 11)).contextDocument.map
          (fun d => d.chunks.map ContextChunk.id) = some [1] ∧
      some [(0 : Nat)] ≠ some [1] ∧
      (refreshContext initialState
          (FileSystem.mk true false "hello world".data 11)).contextDocument.map
            (fun d => d.chunks.map chunkData) =
        (refreshContext (refreshContext initialState
            (FileSystem.mk true false "hello world".data 11))
          (FileSystem.mk true false "hello world".data 11)).contextDocument.map
            (fun d => d.chunks.map chunkData) := by
  refine ⟨?_, ?_, by decide, ?_⟩ <;> decide

/-- Claim C3 as amended: chunking is deterministic in everything except the
freshly drawn uuid ids — processing the same document from any two points of
the uuid supply yields chunk lists equal in text, keywords, and section
title; likewise two refreshes against an unchanged backing store produce
cached documents equal in content, size, validity, and in the text, keywords,
and section of every chunk (ids alone differ, being fresh draws). -/
theorem c3_amended (content : Str) (n m : Nat) (s : MCPState) (fs : FileSystem) :
    (processContextContent content n).1.map chunkData =
        (processContextContent content m).1.map chunkData ∧
      (refreshContext (refreshContext s fs) fs).contextDocument.map docData =
        (refreshContext s fs).contextDocument.map docData := by
  refine ⟨processContextContent_data content n m, ?_⟩
  unfold refreshContext
  cases hr : readContextFile fs with
  | none => simp [hr]
  | some doc =>
    simp only [hr, Option.map_some']
    unfold docData
    simp only
    rw [processContextContent_data doc.content]

lemma extractRelevantChunks_ne_nil (q : Str) (chunks : List ContextChunk)
    (h : chunks ≠ []) : extractRelevantChunks q chunks ≠ [] := by
  have hpos : 0 < chunks.length := List.length_pos.mpr h
  simp only [extractRelevantChunks]
  split
  · intro heq
    rcases List.take_eq_nil_iff.mp heq with h0 | hnil
    · exact absurd h0 (by decide)
    · have hlen := congrArg List.length hnil
      rw [length_sortByScoreDesc, List.length_map] at hlen
      simp only [List.length_nil] at hlen
      omega
  · rename_i hcond
    intro heq
    apply hcond
    rw [Bool.and_eq_true]
    refine ⟨by rw [heq]; rfl, ?_⟩
    cases chunks with
    | nil => exact absurd rfl h
    | cons a l => rfl

lemma buildContextPrompt_ne_nil (q : Str) (cs : List ContextChunk)
    (h : cs.isEmpty = false) : buildContextPrompt q cs ≠ [] := by
  unfold buildContextPrompt
  rw [h]
  simp only [Bool.false_eq_true, if_false]
  intro heq
  rcases List.append_eq_nil.mp heq with ⟨h1, -⟩
  rcases List.append_eq_nil.mp h1 with ⟨h2, -⟩
  exact absurd h2 (by decide)

/-- Claim C2: `getContextForQuery` is total (the model of a method whose
failures are all caught); it answers `None` exactly when the context is
unavailable in the state after the lazy initialization, and any answer it
does give is a non-empty string. -/
theorem c2_query_total (q : Str) (s : MCPState) (fs : FileSystem) :
    ((getContextForQuery q s fs).1 = none ↔
        isContextAvailable (getContextForQuery q s fs).2 = false) ∧
      ∀ p, (getContextForQuery q s fs).1 = some p → p ≠ [] := by
  unfold getContextForQuery
  generalize (if s.isInitialized then s else mcpInit s fs) = t
  cases hav : isContextAvailable t with
  | false => simp [hav]
  | true =>
    simp only [hav, Bool.not_true, Bool.false_eq_true, if_false]
    rcases (isContextAvailable_iff t).mp hav with ⟨d, hd, hv, hch⟩
    rw [hd]
    have hrel : extractRelevantChunks q d.chunks ≠ [] :=
      extractRelevantChunks_ne_nil q d.chunks hch
    have hrelE : (extractRelevantChunks q d.chunks).isEmpty = false := by
      simp [List.isEmpty_iff, hrel]
    simp only [hrelE, Bool.false_eq_true, if_false]
    refine ⟨by simp [hav], fun p hp => ?_⟩
    have hmapE : ((extractRelevantChunks q d.chunks).map (·.chunk)).isEmpty = false := by
      simp [List.isEmpty_iff, hrel]
    have := buildContextPrompt_ne_nil q
      ((extractRelevantChunks q d.chunks).map (·.chunk)) hmapE
    cases hp
    exact this

set_option maxRecDepth 8000 in
/-- Witness for C2 at a concrete readable file and a stop-word query. -/
theorem c2_witness :
    (getContextForQuery "the".data initialState
        (FileSystem.mk true false "hello world".data 11)).1 =
      some (buildContextPrompt "the".data
        [⟨0, "hello world".data, ["hello", "world"].map String.data, none⟩]) ∧
      buildContextPrompt "the".data
        [⟨0, "hello world".data, ["hello", "world"].map String.data, none⟩] ≠ [] :=
  ⟨by decide,
    (c2_query_total "the".data initialState
        (FileSystem.mk true false "hello world".data 11)).2 _ (by decide)⟩

set_option maxRecDepth 20000 in
/-- Claim C8: for the document `"# About\nI like Rust and Go.\n# Hobbies\nI enjoy chess."`
and the query `"What languages do you like?"`, the selection is non-empty,
every selected chunk belongs to the section titled `About`, and the prompt
built from the selected chunks contains both `Rust` and `Go`. -/
theorem c8_scenario_about :
    extractRelevantChunks "What languages do you like?".data
        (processContextContent "# About\nI like Rust and Go.\n# Hobbies\nI enjoy chess.".data 0).1 ≠ [] ∧
      (∀ c ∈ extractRelevantChunks "What languages do you like?".data
          (processContextContent "# About\nI like Rust and Go.\n# Hobbies\nI enjoy chess.".data 0).1,
        c.chunk.sectionTitle = some "About".data) ∧
      strIncludes
        (buildContextPrompt "What languages do you like?".data
          ((extractRelevantChunks "What languages do you like?".data
            (processContextContent "# About\nI like Rust and Go.\n# Hobbies\nI enjoy chess.".data 0).1).map
              (·.chunk)))
        "Rust".data = true ∧
      strIncludes
        (buildContextPrompt "What languages do you like?".data
          ((extractRelevantChunks "What languages do you like?".data
            (processContextContent "# About\nI like Rust and Go.\n# Hobbies\nI enjoy chess.".data 0).1).map
              (·.chunk)))
        "Go".data = true := by
  refine ⟨?_, ?_, ?_, ?_⟩ <;> decide

lemma chunksGo_shape (title : Str) (words : List Str) (starts : List Nat)
    (n : Nat) :
    ∀ c ∈ (chunksGo title words starts n).1,
      ∃ j ∈ starts, c.content = trim (joinSpace (window words j)) := by
  induction starts generalizing n with
  | nil => intro c hc; cases hc
  | cons i is ih =>
    intro c hc
    simp only [chunksGo] at hc
    split at hc
    · rcases ih n c hc with ⟨j, hj, hcc⟩
      exact ⟨j, List.mem_cons_of_mem _ hj, hcc⟩
    · rcases List.mem_cons.mp hc with rfl | hmem
      · exact ⟨i, List.mem_cons_self _ _, rfl⟩
      · rcases ih (n + 1) c hmem with ⟨j, hj, hcc⟩
        exact ⟨j, List.mem_cons_of_mem _ hj, hcc⟩

/-- Claim C5: every chunk the chunker emits for a section is the trimmed,
space-joined text of one of the word windows; the window starts advance by
exactly `CHUNK_SIZE - CHUNK_OVERLAP = 450` (so the next start after a full
window exists), and the last 50 words of a full window are exactly the first
50 words of the next window — consecutive windows overlap by exactly
`CHUNK_OVERLAP = 50` words (only a final partial window can overlap less). -/
theorem c5_window_overlap (sec : MDSection) (n i : Nat)
    (hi : i ∈ windowStarts (splitWs sec.content).length)
    (hfull : i + CHUNK_SIZE ≤ (splitWs sec.content).length) :
    (∀ c ∈ (createChunksFromSection sec n).1,
        ∃ j ∈ windowStarts (splitWs sec.content).length,
          c.content = trim (joinSpace (window (splitWs sec.content) j))) ∧
      i + (CHUNK_SIZE - CHUNK_OVERLAP) ∈ windowStarts (splitWs sec.content).length ∧
      (window (splitWs sec.content) i).drop (CHUNK_SIZE - CHUNK_OVERLAP) =
        (window (splitWs sec.content) (i + (CHUNK_SIZE - CHUNK_OVERLAP))).take CHUNK_OVERLAP ∧
      ((window (splitWs sec.content) i).drop (CHUNK_SIZE - CHUNK_OVERLAP)).length =
        CHUNK_OVERLAP := by
  refine ⟨?_, ?_, ?_, ?_⟩
  · intro c hc
    exact chunksGo_shape sec.title (splitWs sec.content) _ n c hc
  · simp only [windowStarts, CHUNK_SIZE, CHUNK_OVERLAP, List.mem_map,
      List.mem_range] at hi ⊢
    rcases hi with ⟨k, hk, rfl⟩
    simp only [CHUNK_SIZE, CHUNK_OVERLAP] at hfull
    exact ⟨k + 1, by omega, by ring⟩
  · unfold window
    simp only [CHUNK_SIZE, CHUNK_OVERLAP]
    rw [List.drop_take, List.drop_drop, List.take_take]
    norm_num
  · unfold window
    simp only [CHUNK_SIZE, CHUNK_OVERLAP] at hfull ⊢
    rw [List.drop_take, List.drop_drop]
    simp only [List.length_take, List.length_drop]
    omega

set_option maxRecDepth 40000 in
/-- Witness for C5 at a concrete 500-word single-section document. -/
theorem c5_witness :
    0 ∈ windowStarts
        (splitWs (MDSection.mk [] (joinSpace (List.replicate 500 ['a']))).content).length ∧
      0 + CHUNK_SIZE ≤
        (splitWs (MDSection.mk [] (joinSpace (List.replicate 500 ['a']))).content).length ∧
      ((window (splitWs (MDSection.mk [] (joinSpace (List.replicate 500 ['a']))).content) 0).drop
          (CHUNK_SIZE - CHUNK_OVERLAP)).length = CHUNK_OVERLAP :=
  ⟨by decide, by decide,
    (c5_window_overlap (MDSection.mk [] (joinSpace (List.replicate 500 ['a']))) 0 0
        (by decide) (by decide)).2.2.2⟩

/-- Claim C9: one call to `initialize` (modelled by `mcpInit`) sets the
`initialized` flag on every path — even when the load failed and no document
is cached; a second call leaves every piece of state data unchanged apart
from the uuid draws (idempotence up to fresh chunk ids); and once the flag is
set, `getContextForQuery` neither touches the state nor consults the backing
store, so repeated queries perform no further I/O. -/
theorem c9_init_idempotent (s : MCPState) (fs : FileSystem) :
    (mcpInit s fs).isInitialized = true ∧
      stateDataEquiv (mcpInit (mcpInit s fs) fs) (mcpInit s fs) ∧
      ∀ (q : Str) (t : MCPState) (fs1 fs2 : FileSystem), t.isInitialized = true →
        getContextForQuery q t fs1 = getContextForQuery q t fs2 ∧
        (getContextForQuery q t fs1).2 = t := by
  refine ⟨rfl, ?_, ?_⟩
  · unfold stateDataEquiv mcpInit refreshContext
    cases hr : readContextFile fs with
    | none => simp [hr]
    | some doc =>
      simp only [hr]
      refine ⟨trivial, ?_⟩
      simp only [Option.map_some']
      unfold docData
      simp only
      rw [processContextContent_data doc.content]
  · intro q t fs1 fs2 ht
    unfold getContextForQuery
    simp only [ht, if_true]
    refine ⟨trivial, ?_⟩
    cases hav : isContextAvailable t with
    | false => simp [hav]
    | true =>
      simp only [hav, Bool.not_true, Bool.false_eq_true, if_false]
      cases hd : t.contextDocument with
      | none => rfl
      | some doc =>
        simp only [hd]
        split <;> rfl

/-- Witness for C9: a failed load (missing file) still sets the flag, and a
later query against a different backing store leaves the state untouched. -/
theorem c9_witness :
    (mcpInit initialState (FileSystem.mk false false [] 0)).isInitialized = true ∧
      (getContextForQuery "hi".data
          (mcpInit initialState (FileSystem.mk false false [] 0))
          (FileSystem.mk true false "x".data 1)).2 =
        mcpInit initialState (FileSystem.mk false false [] 0) :=
  ⟨(c9_init_idempotent initialState (FileSystem.mk false false [] 0)).1,
    ((c9_init_idempotent initialState (FileSystem.mk false false [] 0)).2.2 "hi".data
        (mcpInit initialState (FileSystem.mk false false [] 0))
        (FileSystem.mk true false "x".data 1) (FileSystem.mk false false [] 0)
        (by decide)).2⟩

lemma fieldsAux_append_ws (w : Char) (hw : isWsChar w = true) (b : Str) :
    ∀ (a acc : Str), fieldsAux (a ++ w :: b) acc = fieldsAux a acc ++ fields b := by
  intro a
  induction a with
  | nil =>
    intro acc
    simp only [List.nil_append, fieldsAux, hw, fields]
    cases hacc : acc.isEmpty <;> simp [fieldsAux, hacc]
  | cons c cs ih =>
    intro acc
    simp only [List.cons_append, fieldsAux]
    cases hc : isWsChar c <;> cases hacc : acc.isEmpty <;>
      simp [hc, hacc, ih]

lemma fields_append_ws (a b : Str) (w : Char) (hw : isWsChar w = true) :
    fields (a ++ w :: b) = fields a ++ fields b :=
  fieldsAux_append_ws w hw b a []

lemma fieldsAux_ne_nil (s : Str) : ∀ acc : Str, acc ≠ [] → fieldsAux s acc ≠ [] := by
  induction s with
  | nil =>
    intro acc h
    simp [fieldsAux, List.isEmpty_iff, h]
  | cons c cs ih =>
    intro acc h
    simp only [fieldsAux]
    cases hc : isWsChar c
    · simp only [Bool.false_eq_true, if_false]
      exact ih (c :: acc) (by simp)
    · simp only [if_true]
      have : acc.isEmpty = false := by simp [List.isEmpty_iff, h]
      simp [this]

lemma fields_ne_nil (c : Char) (cs : Str) (hc : isWsChar c = false) :
    fields (c :: cs) ≠ [] := by
  unfold fields
  simp only [fieldsAux, hc, Bool.false_eq_true, if_false]
  exact fieldsAux_ne_nil cs [c] (by simp)

lemma fieldsAux_all (s : Str) :
    ∀ acc : Str, (∀ ch ∈ acc, isWsChar ch = false) →
      ∀ f ∈ fieldsAux s acc, f ≠ [] ∧ ∀ ch ∈ f, isWsChar ch = false := by
  induction s with
  | nil =>
    intro acc hacc f hf
    by_cases h : acc.isEmpty
    · simp [fieldsAux, h] at hf
    · simp only [fieldsAux, h, Bool.false_eq_true] at hf
      simp only [if_false] at hf
      rcases List.mem_singleton.mp hf with rfl
      refine ⟨by simpa [List.isEmpty_iff] using h, fun ch hch => hacc ch ?_⟩
      exact List.mem_reverse.mp hch
  | cons c cs ih =>
    intro acc hacc f hf
    simp only [fieldsAux] at hf
    cases hc : isWsChar c
    · rw [hc] at hf
      simp only [Bool.false_eq_true, if_false] at hf
      refine ih (c :: acc) ?_ f hf
      intro ch hch
      rcases List.mem_cons.mp hch with rfl | hm
      · exact hc
      · exact hacc ch hm
    · rw [hc] at hf
      simp only [if_true] at hf
      by_cases hacc2 : acc.isEmpty
      · rw [if_pos hacc2] at hf
        exact ih [] (by simp) f hf
      · rw [if_neg hacc2] at hf
        rcases List.mem_cons.mp hf with rfl | hm
        · refine ⟨by simpa [List.isEmpty_iff] using hacc2, fun ch hch => hacc ch ?_⟩
          exact List.mem_reverse.mp hch
        · exact ih [] (by simp) f hm

lemma fields_all (s : Str) :
    ∀ f ∈ fields s, f ≠ [] ∧ ∀ ch ∈ f, isWsChar ch = false :=
  fieldsAux_all s [] (by simp)

lemma joinSpace_append (a b : List Str) (ha : a ≠ []) :
    joinSpace (a ++ b) =
      joinSpace a ++ (if b.isEmpty then [] else ' ' :: joinSpace b) := by
  induction a with
  | nil => exact absurd rfl ha
  | cons x a' ih =>
    cases a' with
    | nil =>
      cases b with
      | nil => simp [joinSpace]
      | cons y ys => simp [joinSpace]
    | cons x' a'' =>
      have h1 : joinSpace ((x :: x' :: a'') ++ b) =
          x ++ ' ' :: joinSpace ((x' :: a'') ++ b) := rfl
      have h2 : joinSpace (x :: x' :: a'') = x ++ ' ' :: joinSpace (x' :: a'') := rfl
      rw [h1, ih (by simp), h2]
      simp [List.append_assoc]

lemma joinSpace_ne_nil (f : Str) (fs : List Str) (hf : f ≠ []) :
    joinSpace (f :: fs) ≠ [] := by
  cases fs with
  | nil => exact hf
  | cons g gs =>
    have : joinSpace (f :: g :: gs) = f ++ ' ' :: joinSpace (g :: gs) := rfl
    rw [this]
    exact List.append_ne_nil_of_left_ne_nil hf _

lemma joinSpace_cons_form (c : Char) (f : Str) (fs : List Str) :
    ∃ t, joinSpace ((c :: f) :: fs) = c :: t := by
  cases fs with
  | nil => exact ⟨f, rfl⟩
  | cons g gs => exact ⟨f ++ ' ' :: joinSpace (g :: gs), rfl⟩

lemma trimLeft_cons (c : Char) (s : Str) (hc : isWsChar c = false) :
    trimLeft (c :: s) = c :: s := by
  simp [trimLeft, List.dropWhile_cons, hc]

lemma dropWhile_ws_append (ru ra : Str)
    (hra : ∀ c, ra.head? = some c → isWsChar c = false) :
    List.dropWhile isWsChar (ru ++ ra) = List.dropWhile isWsChar ru ++ ra := by
  induction ru with
  | nil =>
    simp only [List.nil_append, List.dropWhile_nil]
    cases ra with
    | nil => rfl
    | cons c t => simp [List.dropWhile_cons, hra c rfl]
  | cons c ru' ih =>
    simp only [List.cons_append, List.dropWhile_cons]
    cases hc : isWsChar c <;> simp [hc, ih]

lemma trimRight_append (a u : Str)
    (hlast : ∀ c, a.getLast? = some c → isWsChar c = false) :
    trimRight (a ++ u) = a ++ trimRight u := by
  unfold trimRight
  rw [List.reverse_append]
  rw [dropWhile_ws_append u.reverse a.reverse (fun c hc => hlast c (by rwa [List.head?_reverse] at hc))]
  rw [List.reverse_append, List.reverse_reverse]

lemma getLast_joinSpace (l : List Str) (hl : l ≠ [])
    (hall : ∀ f ∈ l, f ≠ [] ∧ ∀ ch ∈ f, isWsChar ch = false) :
    ∀ c, (joinSpace l).getLast? = some c → isWsChar c = false := by
  induction l with
  | nil => exact absurd rfl hl
  | cons f fs ih =>
    intro c hc
    cases fs with
    | nil =>
      have : joinSpace [f] = f := rfl
      rw [this] at hc
      exact (hall f (by simp)).2 c (List.mem_of_mem_getLast? hc)
    | cons g gs =>
      have hjoin : joinSpace (f :: g :: gs) = f ++ ' ' :: joinSpace (g :: gs) := rfl
      rw [hjoin] at hc
      have hne : joinSpace (g :: gs) ≠ [] :=
        joinSpace_ne_nil g gs (hall g (by simp)).1
      rw [List.getLast?_append_of_ne_nil f (by simp)] at hc
      have : (' ' :: joinSpace (g :: gs)).getLast? = (joinSpace (g :: gs)).getLast? :=
        List.getLast?_append_of_ne_nil [' '] hne
      rw [this] at hc
      exact ih (by simp) (fun f' hf' => hall f' (List.mem_cons_of_mem f hf')) c hc

lemma header_head (L : Str) (hH : isHeaderLine L = true) : ∃ L0, L = '#' :: L0 := by
  cases L with
  | nil => simp [isHeaderLine] at hH
  | cons c L0 =>
    by_cases hc : c = '#'
    · exact ⟨L0, by rw [hc]⟩
    · exfalso
      simp [isHeaderLine, List.takeWhile_cons, hc] at hH

lemma splitWs_cons_not_ws (c : Char) (s : Str) (hc : isWsChar c = false) :
    ∃ e, (e = [] ∨ e = [([] : Str)]) ∧ splitWs (c :: s) = fields (c :: s) ++ e := by
  refine ⟨if isWsChar ((c :: s).getLastD 'x') then [([] : Str)] else [], ?_, ?_⟩
  · split
    · right; rfl
    · left; rfl
  · unfold splitWs
    simp [hc]

lemma fieldsAux_head (cs : Str) :
    ∀ acc : Str, acc ≠ [] → ∃ f rest2, fieldsAux cs acc = (acc.reverse ++ f) :: rest2 := by
  induction cs with
  | nil =>
    intro acc h
    refine ⟨[], [], ?_⟩
    simp [fieldsAux, List.isEmpty_iff, h]
  | cons c cs' ih =>
    intro acc h
    simp only [fieldsAux]
    cases hc : isWsChar c
    · simp only [Bool.false_eq_true, if_false]
      obtain ⟨f, r2, hf⟩ := ih (c :: acc) (by simp)
      refine ⟨c :: f, r2, ?_⟩
      rw [hf]
      simp
    · have hacc : acc.isEmpty = false := by simp [List.isEmpty_iff, h]
      simp only [if_true, hacc, Bool.false_eq_true, if_false]
      exact ⟨[], fieldsAux cs' [], by simp⟩

lemma fields_head_not_ws (c : Char) (cs : Str) (hc : isWsChar c = false) :
    ∃ f rest2, fields (c :: cs) = (c :: f) :: rest2 := by
  unfold fields
  simp only [fieldsAux, hc, Bool.false_eq_true, if_false]
  obtain ⟨f, r2, hf⟩ := fieldsAux_head cs [c] (by simp)
  exact ⟨f, r2, by simpa using hf⟩

lemma windowStarts_pos (len : Nat) (h : 0 < len) :
    ∃ S, windowStarts len = 0 :: S := by
  unfold windowStarts
  obtain ⟨k, hk⟩ : ∃ k,
      (len + (CHUNK_SIZE - CHUNK_OVERLAP) - 1) / (CHUNK_SIZE - CHUNK_OVERLAP) = k + 1 := by
    have hpos : 0 < (len + (CHUNK_SIZE - CHUNK_OVERLAP) - 1) / (CHUNK_SIZE - CHUNK_OVERLAP) := by
      simp only [CHUNK_SIZE, CHUNK_OVERLAP]
      omega
    exact ⟨(len + (CHUNK_SIZE - CHUNK_OVERLAP) - 1) / (CHUNK_SIZE - CHUNK_OVERLAP) - 1,
      by omega⟩
  rw [hk, List.range_succ_eq_map]
  exact ⟨((List.range k).map Nat.succ).map (· * (CHUNK_SIZE - CHUNK_OVERLAP)), by simp⟩

lemma trim_of_fields_headed (A T : List Str) (hA : ∃ s, A = fields s ∧ A ≠ [])
    (hhead : ∃ c f fs, A = (c :: f) :: fs ∧ isWsChar c = false) :
    joinSpace A <+: trim (joinSpace (A ++ T)) := by
  obtain ⟨s, hAs, hAne⟩ := hA
  obtain ⟨c, f, fs, hAform, hcw⟩ := hhead
  have hall : ∀ g ∈ A, g ≠ [] ∧ ∀ ch ∈ g, isWsChar ch = false := by
    rw [hAs]
    exact fields_all s
  have hlast : ∀ ch, (joinSpace A).getLast? = some ch → isWsChar ch = false :=
    getLast_joinSpace A hAne hall
  rw [joinSpace_append A T hAne]
  set u := if T.isEmpty then ([] : Str) else ' ' :: joinSpace T with hu
  obtain ⟨t, ht⟩ : ∃ t, joinSpace A = c :: t := by
    rw [hAform]
    exact joinSpace_cons_form c f fs
  have htrimL : trimLeft (joinSpace A ++ u) = joinSpace A ++ u := by
    rw [ht]
    exact trimLeft_cons c (t ++ u) hcw
  unfold trim
  rw [htrimL, trimRight_append (joinSpace A) u hlast]
  exact ⟨trimRight u, rfl⟩

set_option maxHeartbeats 1000000 in
lemma firstChunk_of_header_section (L rest title : Str) (n : Nat)
    (hH : isHeaderLine L = true) (hlen : (fields L).length ≤ CHUNK_SIZE) :
    ∃ c cs, (createChunksFromSection ⟨title, L ++ '\n' :: rest⟩ n).1 = c :: cs ∧
      joinSpace (fields L) <+: c.content ∧
      c.keywords = extractKeywords c.content := by
  obtain ⟨L0, rfl⟩ := header_head L hH
  have hhash : isWsChar '#' = false := by decide
  have hCform : ('#' :: L0) ++ '\n' :: rest = '#' :: (L0 ++ '\n' :: rest) := rfl
  obtain ⟨e, he, hsplit⟩ := splitWs_cons_not_ws '#' (L0 ++ '\n' :: rest) hhash
  rw [← hCform] at hsplit
  have hfields : fields (('#' :: L0) ++ '\n' :: rest) =
      fields ('#' :: L0) ++ fields rest :=
    fields_append_ws ('#' :: L0) rest '\n' (by decide)
  have hsplit2 : splitWs (('#' :: L0) ++ '\n' :: rest) =
      fields ('#' :: L0) ++ (fields rest ++ e) := by
    rw [hsplit, hfields, List.append_assoc]
  have hAne : fields ('#' :: L0) ≠ [] := fields_ne_nil '#' L0 hhash
  have hlenpos : 0 < (splitWs (('#' :: L0) ++ '\n' :: rest)).length := by
    rw [hsplit2]
    simp only [List.length_append]
    have := List.length_pos.mpr hAne
    omega
  obtain ⟨S, hS⟩ := windowStarts_pos _ hlenpos
  have hwin : window (splitWs (('#' :: L0) ++ '\n' :: rest)) 0 =
      fields ('#' :: L0) ++
        ((fields rest ++ e).take (CHUNK_SIZE - (fields ('#' :: L0)).length)) := by
    unfold window
    rw [List.drop_zero, hsplit2, List.take_append_eq_append_take,
      List.take_of_length_le hlen]
  have hprefix : joinSpace (fields ('#' :: L0)) <+:
      trim (joinSpace (window (splitWs (('#' :: L0) ++ '\n' :: rest)) 0)) := by
    rw [hwin]
    refine trim_of_fields_headed _ _ ⟨'#' :: L0, rfl, hAne⟩ ?_
    obtain ⟨f, r2, hf⟩ := fields_head_not_ws '#' L0 hhash
    exact ⟨'#', f, r2, hf, hhash⟩
  have hc0ne : trim (joinSpace (window (splitWs (('#' :: L0) ++ '\n' :: rest)) 0)) ≠ [] := by
    intro hnil
    rcases hprefix with ⟨t, hts⟩
    rw [hnil] at hts
    have := List.append_eq_nil.mp hts
    obtain ⟨f, r2, hf⟩ := fields_head_not_ws '#' L0 hhash
    rw [hf] at this
    exact absurd this.1 (joinSpace_ne_nil _ _ (by simp))
  unfold createChunksFromSection
  simp only [hS, chunksGo]
  rw [if_neg (by simpa [List.isEmpty_iff] using hc0ne)]
  refine ⟨_, _, rfl, hprefix, ?_⟩
  dsimp only

lemma isEmpty_false_iff {α : Type _} (l : List α) : l.isEmpty = false ↔ l ≠ [] := by
  cases l <;> simp

lemma trim_eq_nil_iff (s : Str) : trim s = [] ↔ ∀ c ∈ s, isWsChar c = true := by
  unfold trim trimRight trimLeft
  rw [List.reverse_eq_nil_iff, List.dropWhile_eq_nil_iff]
  constructor
  · intro h c hc
    rcases List.mem_append.mp
        ((List.takeWhile_append_dropWhile isWsChar s) ▸ hc) with h1 | h2
    · exact List.mem_takeWhile_imp h1
    · exact h c (List.mem_reverse.mpr h2)
  · intro h x hx
    exact h x ((List.dropWhile_sublist isWsChar).mem (List.mem_reverse.mp hx))

lemma trim_ne_nil_append (s t : Str) (h : trim s ≠ []) : trim (s ++ t) ≠ [] := by
  intro habs
  apply h
  rw [trim_eq_nil_iff] at habs ⊢
  intro c hc
  exact habs c (List.mem_append_left t hc)

lemma splitGo_extends : ∀ (ls : List Str) (cur : MDSection),
    (trim cur.content).isEmpty = false →
      ∃ rest, MDSection.mk cur.title (cur.content ++ rest) ∈ splitGo ls cur := by
  intro ls
  induction ls with
  | nil =>
    intro cur h
    refine ⟨[], ?_⟩
    simp only [splitGo, h, Bool.false_eq_true, if_false]
    rw [List.append_nil]
    exact List.mem_singleton.mpr rfl
  | cons l ls ih =>
    intro cur h
    by_cases hl : isHeaderLine l = true
    · refine ⟨[], ?_⟩
      simp only [splitGo, hl, if_true, h, Bool.false_eq_true, if_false]
      rw [List.append_nil]
      exact List.mem_append_left _ (List.mem_singleton.mpr rfl)
    · have hl' : isHeaderLine l = false := by simpa using hl
      simp only [splitGo, hl', Bool.false_eq_true, if_false]
      have h2 : (trim (cur.content ++ l ++ ['\n'])).isEmpty = false := by
        rw [isEmpty_false_iff, List.append_assoc]
        exact trim_ne_nil_append _ _ ((isEmpty_false_iff _).mp h)
      obtain ⟨rest', hmem⟩ := ih ⟨cur.title, cur.content ++ l ++ ['\n']⟩ h2
      refine ⟨l ++ '\n' :: rest', ?_⟩
      have harr : cur.content ++ (l ++ '\n' :: rest') =
          (cur.content ++ l ++ ['\n']) ++ rest' := by
        simp [List.append_assoc]
      rw [harr]
      exact hmem

lemma splitGo_header_mem : ∀ (ls : List Str) (L : Str), L ∈ ls →
    isHeaderLine L = true → ∀ cur,
      ∃ rest, MDSection.mk (headerTitle L) (L ++ '\n' :: rest) ∈ splitGo ls cur := by
  intro ls
  induction ls with
  | nil => intro L hL; cases hL
  | cons l ls ih =>
    intro L hL hH cur
    rcases List.mem_cons.mp hL with rfl | hmem
    · simp only [splitGo, hH, if_true]
      have hne : (trim (L ++ ['\n'])).isEmpty = false := by
        rw [isEmpty_false_iff]
        intro habs
        rw [trim_eq_nil_iff] at habs
        obtain ⟨L0, rfl⟩ := header_head L hH
        have := habs '#' (by simp)
        simp [isWsChar] at this
      obtain ⟨rest, hmem2⟩ := splitGo_extends ls ⟨headerTitle L, L ++ ['\n']⟩ hne
      refine ⟨rest, List.mem_append_right _ ?_⟩
      have harr : L ++ '\n' :: rest = (L ++ ['\n']) ++ rest := by simp
      rw [harr]
      exact hmem2
    · by_cases hl : isHeaderLine l = true
      · simp only [splitGo, hl, if_true]
        obtain ⟨rest, hm⟩ := ih L hmem hH ⟨headerTitle l, l ++ ['\n']⟩
        exact ⟨rest, List.mem_append_right _ hm⟩
      · have hl' : isHeaderLine l = false := by simpa using hl
        simp only [splitGo, hl', Bool.false_eq_true, if_false]
        exact ih L hmem hH _

lemma header_section_mem (content L : Str) (hmem : L ∈ splitLines content)
    (hH : isHeaderLine L = true) :
    ∃ rest, MDSection.mk (headerTitle L) (L ++ '\n' :: rest) ∈
      splitByMarkdownHeaders content := by
  obtain ⟨rest, hm⟩ := splitGo_header_mem (splitLines content) L hmem hH ⟨[], []⟩
  refine ⟨rest, ?_⟩
  unfold splitByMarkdownHeaders
  have hne : (splitGo (splitLines content) ⟨[], []⟩).isEmpty = false :=
    (isEmpty_false_iff _).mpr (List.ne_nil_of_mem hm)
  simp only [hne, Bool.false_eq_true, if_false]
  exact hm

/-- Counterexample to claim C10 as stated: for the document `"#\tT\nhello"`
the header line `"#\tT"` (tab after the hash) does start its section's
content, but the section's first chunk's text is the whitespace-normalized
`"# T hello"`, which does not contain — let alone start with — the header
line itself. -/
theorem c10_counterexample :
    isHeaderLine "#\tT".data = true ∧
      splitByMarkdownHeaders "#\tT\nhello".data =
        [⟨"T".data, "#\tT\nhello\n".data⟩] ∧
      (createChunksFromSection ⟨"T".data, "#\tT\nhello\n".data⟩ 0).1.map
          ContextChunk.content = ["# T hello".data] ∧
      strIncludes "# T hello".data "#\tT".data = false := by
  refine ⟨by decide, by decide, by decide, by decide⟩

/-- Claim C10 as amended: every markdown header line of the document starts a
section whose content begins with the header line itself (leading `#`
characters included); when the header line has at most `CHUNK_SIZE` words,
the section's first chunk exists and its text begins with the header line's
words joined by single spaces (for a header line with single spaces — the
common case — that is the literal header line), and the chunk's keywords are
extracted from that text, so the header's words (title included) participate
in the chunk's keyword extraction. -/
theorem c10_amended (content L : Str) (hmem : L ∈ splitLines content)
    (hH : isHeaderLine L = true) (hlen : (fields L).length ≤ CHUNK_SIZE) :
    ∃ rest, MDSection.mk (headerTitle L) (L ++ '\n' :: rest) ∈
        splitByMarkdownHeaders content ∧
      ∀ n, ∃ c cs,
        (createChunksFromSection ⟨headerTitle L, L ++ '\n' :: rest⟩ n).1 = c :: cs ∧
        joinSpace (fields L) <+: c.content ∧
        c.keywords = extractKeywords c.content := by
  obtain ⟨rest, hsec⟩ := header_section_mem content L hmem hH
  exact ⟨rest, hsec, fun n =>
    firstChunk_of_header_section L rest (headerTitle L) n hH hlen⟩

/-- Witness for C10 as amended, at the concrete document `"# About\nhello"`. -/
theorem c10_witness :
    ("# About".data ∈ splitLines "# About\nhello".data ∧
        isHeaderLine "# About".data = true ∧
        (fields "# About".data).length ≤ CHUNK_SIZE) ∧
      ∃ rest, MDSection.mk (headerTitle "# About".data) ("# About".data ++ '\n' :: rest) ∈
          splitByMarkdownHeaders "# About\nhello".data ∧
        ∀ n, ∃ c cs,
          (createChunksFromSection
              ⟨headerTitle "# About".data, "# About".data ++ '\n' :: rest⟩ n).1 = c :: cs ∧
          joinSpace (fields "# About".data) <+: c.content ∧
          c.keywords = extractKeywords c.content :=
  ⟨⟨by decide, by decide, by decide⟩,
    c10_amended "# About\nhello".data "# About".data (by decide) (by decide) (by decide)⟩

